import Mathlib

/-!
Shallow embedding of the TSP heuristic core of this repository
(`tsp/distances.py`, `tsp/heuristics.py`, `tsp/solver.py`) and proofs
about it.

Modelling conventions:
* Python floats are modelled as rationals (`ℚ`); distance matrices are
  total functions `ℕ → ℕ → ℚ` (a concrete n×n matrix is such a function
  restricted to indices below n).
* City indices are `ℕ`; routes are `List ℕ`.
* `time.time()` / `time_limit` are not modelled: every embedded run is
  the `time_limit = None` execution path of the source.
* Raising code is modelled with `Except String`.
-/

namespace TSP

/-- Sum of `D[l[i], l[i+1]]` over consecutive pairs of `l`
(the `D[idx[:-1], idx[1:]].sum()` of `route_length` in `tsp/distances.py`). -/
def consecSum (D : ℕ → ℕ → ℚ) : List ℕ → ℚ
  | [] => 0
  | [_] => 0
  | a :: b :: rest => D a b + consecSum D (b :: rest)

/-- `route_length` from `tsp/distances.py`: 0 for routes shorter than 2,
otherwise the sum over consecutive pairs, plus the closing edge
`D[route[-1], route[0]]` when `closed`. -/
def route_length (route : List ℕ) (D : ℕ → ℕ → ℚ) (closed : Bool) : ℚ :=
  if route.length < 2 then 0
  else consecSum D route + (if closed then D (route.getLastD 0) (route.headD 0) else 0)

/-- Type of the progress callback: it receives (route, length_open,
length_closed) — the `time` field of the source dict is wall-clock time and is
not modelled — and may raise (`Except.error`). -/
abbrev ProgressFn : Type := List ℕ × ℚ × ℚ → Except String Unit

/-- `best[i:j+1] = best[i:j+1][::-1]` from `two_opt`: reverse the segment of
positions `i..j` inclusive. -/
def reverseSegment (l : List ℕ) (i j : ℕ) : List ℕ :=
  l.take i ++ ((l.drop i).take (j + 1 - i)).reverse ++ l.drop (j + 1)

/-- State threaded through one double-scan pass of `two_opt`:
the working array `best`, the incrementally tracked closed length `best_len`,
the `improved` flag, and (as instrumentation) the number of segment
reversals applied so far in this pass. -/
structure PassState where
  best : List ℕ
  len : ℚ
  improved : Bool
  moves : ℕ
  deriving Repr, DecidableEq

/-- The inner `for j in range(i+1, n_closed-1)` loop of `two_opt`
(`tsp/heuristics.py` lines 89–109), for one fixed `i`, over the remaining
list of `j` values.  On `delta < -thr` the segment is reversed, `best_len`
updated, the callback invoked (its outcome discarded — the source wraps the
call in `try/except Exception: pass`), and the loop breaks; otherwise, if a
move was already applied earlier in this pass (`improved`), the loop breaks
immediately (this is the source's `if improved: break`, which sits inside
the `j` loop). -/
def jscan (D : ℕ → ℕ → ℚ) (thr : ℚ) (nc : ℕ) (cb : Option ProgressFn) (i : ℕ)
    (s : PassState) : List ℕ → PassState
  | [] => s
  | j :: rest =>
    let a := s.best.getD (i - 1) 0
    let b := s.best.getD i 0
    let c := s.best.getD j 0
    let d := s.best.getD ((j + 1) % nc) 0
    let delta := (D a c + D b d) - (D a b + D c d)
    if delta < -thr then
      let best2 := reverseSegment s.best i j
      let len2 := s.len + delta
      let _ := match cb with
        | some f => f (best2.dropLast, len2 - D (best2.getLastD 0) (best2.headD 0), len2)
        | none => Except.ok ()
      { best := best2, len := len2, improved := true, moves := s.moves + 1 }
    else if s.improved then s
    else jscan D thr nc cb i s rest

/-- The outer `for i in range(1, n_closed-2)` loop of `two_opt`, over the
remaining list of `i` values (the time-limit check at the top of the loop
body is the `time_limit = None` path, i.e. a no-op). -/
def iscan (D : ℕ → ℕ → ℚ) (thr : ℚ) (nc : ℕ) (cb : Option ProgressFn)
    (s : PassState) : List ℕ → PassState
  | [] => s
  | i :: rest =>
    iscan D thr nc cb (jscan D thr nc cb i s (List.range' (i + 1) (nc - 1 - (i + 1)))) rest

/-- One full double scan (one iteration of the `while` loop of `two_opt`):
`improved` is reset to `false`, then the `(i, j)` double loop runs. -/
def onePass (D : ℕ → ℕ → ℚ) (thr : ℚ) (nc : ℕ) (cb : Option ProgressFn)
    (best : List ℕ) (len : ℚ) : PassState :=
  iscan D thr nc cb { best := best, len := len, improved := false, moves := 0 }
    (List.range' 1 (nc - 3))

/-- The `while improved and iters < max_iters` loop of `two_opt`: run passes
until a pass applies no move or the iteration budget is exhausted. -/
def twoOptLoop (D : ℕ → ℕ → ℚ) (thr : ℚ) (nc : ℕ) (cb : Option ProgressFn) :
    ℕ → List ℕ → ℚ → List ℕ × ℚ
  | 0, best, len => (best, len)
  | fuel + 1, best, len =>
    let s := onePass D thr nc cb best len
    if s.improved then twoOptLoop D thr nc cb fuel s.best s.len else (s.best, s.len)

/-- The source default `improve_threshold = 1e-9`. -/
def default_improve_threshold : ℚ := 1 / 1000000000

/-- Lines 70–73 of `two_opt`: `tour = list(route)` (a copy) closed by appending
the first element unless the route already ends with it. -/
def tourOf (route : List ℕ) : List ℕ :=
  if route.headD 0 ≠ route.getLastD 0 then route ++ [route.headD 0] else route

/-- Lines 73–109 of `two_opt` for a route of length ≥ 2: `best` is the closed
tour, `best_len` is initialised to
`route_length(best, D, closed=False) + D[best[-1], best[0]]`, and the
improvement loop runs. -/
def twoOptRun (route : List ℕ) (D : ℕ → ℕ → ℚ) (max_iters : ℕ) (thr : ℚ)
    (cb : Option ProgressFn) : List ℕ × ℚ :=
  twoOptLoop D thr (tourOf route).length cb max_iters (tourOf route)
    (route_length (tourOf route) D false +
      D ((tourOf route).getLastD 0) ((tourOf route).headD 0))

/-- `two_opt` from `tsp/heuristics.py` (the `time_limit = None` path):
routes shorter than 2 are returned unchanged with length 0; otherwise the
closed tour is built and improved (`twoOptRun`), and
`(best[:-1], best_len - D[best[-1], best[0]])` is returned. -/
def two_opt (route : List ℕ) (D : ℕ → ℕ → ℚ) (max_iters : ℕ := 1000)
    (thr : ℚ := default_improve_threshold) (cb : Option ProgressFn := none) :
    List ℕ × ℚ :=
  if route.length < 2 then (route, 0)
  else
    let r := twoOptRun route D max_iters thr cb
    (r.1.dropLast, r.2 - D (r.1.getLastD 0) (r.1.headD 0))

/-- Invariant of the working array of `two_opt`: fixed length `nc`, and the
first and last entries both equal to `t0` (the tour is kept closed — the
scan bounds `1 ≤ i ≤ j ≤ nc - 2` never touch positions `0` and `nc - 1`). -/
def TourInv (nc t0 : ℕ) (l : List ℕ) : Prop :=
  l.length = nc ∧ l.getD 0 0 = t0 ∧ l.getD (nc - 1) 0 = t0

/-! ## Nearest neighbor (`tsp/heuristics.py` lines 13–42) -/

/-- First-occurrence argmin of `f` over a list of candidate indices: the
frontmost element attaining the minimum (`int(np.argmin(d_row))` semantics for
finite entries). -/
def argminFirst (f : ℕ → ℚ) : List ℕ → Option ℕ
  | [] => none
  | x :: xs =>
    match argminFirst f xs with
    | none => some x
    | some y => if f x ≤ f y then some x else some y

/-- One selection step of `nearest_neighbor`:
`d_row = D[current].copy(); d_row[visited] = np.inf; next_idx = int(np.argmin(d_row))`.
The visited mask is exactly membership in the route built so far, so with
finite distances this is the first-occurrence argmin over unvisited indices
below `n`. -/
def nnStep (D : ℕ → ℕ → ℚ) (n current : ℕ) (route : List ℕ) : ℕ :=
  (argminFirst (D current) ((List.range n).filter (fun j => decide (j ∉ route)))).getD 0

/-- The `for _ in range(n - 1)` loop of `nearest_neighbor`: append the nearest
unvisited index and advance. -/
def nnLoop (D : ℕ → ℕ → ℚ) (n : ℕ) : ℕ → ℕ → List ℕ → List ℕ
  | 0, _, route => route
  | fuel + 1, current, route =>
    let nxt := nnStep D n current route
    nnLoop D n fuel nxt (route ++ [nxt])

/-- `nearest_neighbor` from `tsp/heuristics.py`: empty for `n = 0`; the start
index is clamped to 0 when out of range (the `start_idx < 0` arm of the source
clamp has no ℕ counterpart). -/
def nearest_neighbor (start_idx : ℕ) (D : ℕ → ℕ → ℚ) (n : ℕ) : List ℕ :=
  if n = 0 then []
  else
    let s := if start_idx ≥ n then 0 else start_idx
    nnLoop D n (n - 1) s [s]

/-- Specification of one greedy step: `nxt` is an unvisited index below `n`
at minimal distance from `current`, and any strictly smaller unvisited index
is strictly farther (first-occurrence argmin, i.e. ties go to the lower
index). -/
def stepSpec (D : ℕ → ℕ → ℚ) (n current nxt : ℕ) (visited : List ℕ) : Prop :=
  nxt < n ∧ nxt ∉ visited ∧
  (∀ k, k < n → k ∉ visited → D current nxt ≤ D current k) ∧
  (∀ k, k < n → k ∉ visited → k < nxt → D current nxt < D current k)

/-- A route is greedy iff every consecutive step satisfies `stepSpec` with
the preceding prefix as the visited set. -/
def nnGood (D : ℕ → ℕ → ℚ) (n : ℕ) (route : List ℕ) : Prop :=
  ∀ p, p + 1 < route.length →
    stepSpec D n (route.getD p 0) (route.getD (p + 1) 0) (route.take (p + 1))

/-! ## Solver orchestrator (`tsp/solver.py`) -/

/-- The per-edge distance list `D[idx[:-1], idx[1:]].tolist()` of `solve_tsp`
(empty for routes shorter than 2, as in the source). -/
def edgeList (D : ℕ → ℕ → ℚ) : List ℕ → List ℚ
  | [] => []
  | [_] => []
  | a :: b :: rest => D a b :: edgeList D (b :: rest)

/-- The result record of `solve_tsp` (`route`, `lengths` and the metadata;
`time_seconds` is wall-clock time and is not modelled). -/
structure SolveResult where
  route : List ℕ
  lengths : List ℚ
  method : String
  n : ℕ
  best_open_length : ℚ
  best_closed_length : ℚ
  start_idx : ℕ
  deriving Repr, DecidableEq

/-- `solve_tsp` from `tsp/solver.py`, for a prepared `n × n` distance matrix
(the points → matrix path produces exactly such a matrix).  `start_param` and
`max_iters_param` model `params.get('start_idx', 3753)` and
`params.get('max_iters', 1000)`.  Raises are modelled as `Except.error`.
The progress callback is invoked UNguarded here (the source has no
`try/except` around its two call sites in `solve_tsp`), so a raising callback
propagates; inside `two_opt` it is guarded. -/
def solve_tsp (n : ℕ) (D : ℕ → ℕ → ℚ) (method : String := "nn+2opt")
    (start_param : Option ℤ := none) (max_iters_param : Option ℕ := none)
    (cb : Option ProgressFn := none) : Except String SolveResult :=
  let default_start : ℤ := start_param.getD 3753
  let start_idx : ℕ :=
    if default_start < 0 ∨ (n : ℤ) ≤ default_start then 0 else default_start.toNat
  if method = "nn" then
    let route := nearest_neighbor start_idx D n
    if route = [] then Except.error "nearest_neighbor returned empty route"
    else
      let open_len := route_length route D false
      let closed_len := open_len + D (route.getLastD 0) (route.headD 0)
      do
        (match cb with | some f => f (route, open_len, closed_len) | none => pure ())
        pure { route := route, lengths := edgeList D route, method := method, n := n,
               best_open_length := open_len, best_closed_length := closed_len,
               start_idx := start_idx }
  else if method = "nn+2opt" then
    let route := nearest_neighbor start_idx D n
    if route = [] then Except.error "nearest_neighbor returned empty route"
    else
      let open_len := route_length route D false
      let closed_len := open_len + D (route.getLastD 0) (route.headD 0)
      do
        (match cb with | some f => f (route, open_len, closed_len) | none => pure ())
        let tr := two_opt route D (max_iters_param.getD 1000) default_improve_threshold cb
        if tr.1 ≠ [] ∧ tr.2 < open_len then
          pure { route := tr.1, lengths := edgeList D tr.1, method := method, n := n,
                 best_open_length := tr.2,
                 best_closed_length := tr.2 + D (tr.1.getLastD 0) (tr.1.headD 0),
                 start_idx := start_idx }
        else
          pure { route := route, lengths := edgeList D route, method := method, n := n,
                 best_open_length := open_len, best_closed_length := closed_len,
                 start_idx := start_idx }
  else Except.error "Unknown method"

/-! ## A reference/heap model for the mutation claim (C8)

Python objects live in a store of references.  `two_opt` receives a reference
to the caller's route list; `tour = list(route)` and
`best = np.asarray(tour, dtype=int)` allocate fresh buffers, and every
in-place operation of the function (`tour.append`, `best[i:j+1] = ...`)
writes only those fresh buffers; `best[:-1].tolist()` allocates the returned
list.  All references below `fresh` are owned by the caller. -/

abbrev Store : Type := ℕ → List ℕ

def Store.write (σ : Store) (r : ℕ) (v : List ℕ) : Store :=
  fun x => if x = r then v else σ x

/-- `two_opt` acting on the store: returns the new store, the reference of the
returned route, and the returned length.  For routes shorter than 2 the input
reference itself is returned (`return route, 0.0`), with no write. -/
def two_opt_heap (σ : Store) (routeRef fresh : ℕ) (D : ℕ → ℕ → ℚ)
    (max_iters : ℕ) (thr : ℚ) (cb : Option ProgressFn) : Store × ℕ × ℚ :=
  let route := σ routeRef
  if route.length < 2 then (σ, routeRef, 0)
  else
    let best := tourOf route
    let σ1 := Store.write σ fresh best
    let nc := best.length
    let r := twoOptLoop D thr nc cb max_iters best
      (route_length best D false + D (best.getLastD 0) (best.headD 0))
    let σ2 := Store.write σ1 fresh r.1
    let σ3 := Store.write σ2 (fresh + 1) r.1.dropLast
    (σ3, fresh + 1, r.2 - D (r.1.getLastD 0) (r.1.headD 0))

/-! ## Concrete instances used by the counterexamples and witnesses -/

/-- The 2-city matrix with distance 1 between the two cities. -/
def D2 : ℕ → ℕ → ℚ := fun i j => if i = j then 0 else 1

/-- A symmetric, zero-diagonal, non-negative 5×5 distance matrix on which the
first double-scan pass of `two_opt` applies two segment reversals. -/
def M5 : List (List ℚ) :=
  [[0, 10, 1, 5, 5],
   [10, 0, 15, 1, 1],
   [1, 15, 0, 10, 5],
   [5, 1, 10, 0, 2],
   [5, 1, 5, 2, 0]]

def D5 : ℕ → ℕ → ℚ := fun i j => (M5.getD i []).getD j 0

end TSP

/-! # Helper lemmas -/

namespace TSP

theorem headD_eq_getD (l : List ℕ) (d : ℕ) : l.headD d = l.getD 0 d := by
  cases l <;> rfl

theorem getLastD_eq_getD : ∀ (l : List ℕ) (d : ℕ), l.getLastD d = l.getD (l.length - 1) d
  | [], _ => rfl
  | [_], _ => rfl
  | a :: b :: t, d => by
    rw [List.getLastD_cons, getLastD_eq_getD (b :: t) a]
    have h1 : (b :: t).length - 1 < (b :: t).length := by simp
    have h2 : (a :: b :: t).length - 1 < (a :: b :: t).length := by simp
    rw [List.getD_eq_getElem _ _ h1, List.getD_eq_getElem _ _ h2]
    simp

theorem getLastD_append_singleton (l : List ℕ) (x d : ℕ) :
    (l ++ [x]).getLastD d = x := by
  rw [getLastD_eq_getD]
  have h1 : (l ++ [x]).length - 1 = l.length := by simp
  rw [h1, List.getD_append_right _ _ _ _ (le_refl _)]
  simp

theorem getD_take_zero (l : List ℕ) (i : ℕ) (hi : 0 < i) (d : ℕ) :
    (l.take i).getD 0 d = l.getD 0 d := by
  cases l with
  | nil => simp
  | cons a t =>
    cases i with
    | zero => omega
    | succ k => rfl

theorem getD_drop (l : List ℕ) (k m d : ℕ) (h : k + m < l.length) :
    (l.drop k).getD m d = l.getD (k + m) d := by
  have h1 : m < (l.drop k).length := by
    simp only [List.length_drop]
    omega
  rw [List.getD_eq_getElem _ _ h1, List.getD_eq_getElem _ _ h]
  exact List.getElem_drop ..

theorem reverseSegment_length (l : List ℕ) (i j : ℕ) (hij : i ≤ j) (hj : j < l.length) :
    (reverseSegment l i j).length = l.length := by
  simp only [reverseSegment, List.length_append, List.length_take, List.length_reverse,
    List.length_drop]
  omega

theorem reverseSegment_getD_zero (l : List ℕ) (i j d : ℕ) (hi : 1 ≤ i) (hj : j < l.length) :
    (reverseSegment l i j).getD 0 d = l.getD 0 d := by
  unfold reverseSegment
  rw [List.append_assoc]
  rw [List.getD_append _ _ _ _ (by simp only [List.length_take]; omega)]
  exact getD_take_zero l i (by omega) d

theorem reverseSegment_getD_last (l : List ℕ) (i j d : ℕ) (hij : i ≤ j)
    (hj : j + 1 < l.length) :
    (reverseSegment l i j).getD (l.length - 1) d = l.getD (l.length - 1) d := by
  unfold reverseSegment
  have hfront : (l.take i ++ ((l.drop i).take (j + 1 - i)).reverse).length = j + 1 := by
    simp only [List.length_append, List.length_take, List.length_reverse, List.length_drop]
    omega
  rw [List.getD_append_right _ _ _ _ (by rw [hfront]; omega), hfront]
  rw [getD_drop l (j + 1) (l.length - 1 - (j + 1)) d (by omega)]
  congr 1
  omega

theorem jscan_inv (D : ℕ → ℕ → ℚ) (thr : ℚ) (nc : ℕ) (cb : Option ProgressFn)
    (t0 i : ℕ) (hi : 1 ≤ i) :
    ∀ (js : List ℕ) (s : PassState), (∀ j ∈ js, i ≤ j ∧ j + 2 ≤ nc) →
      TourInv nc t0 s.best →
      TourInv nc t0 (jscan D thr nc cb i s js).best ∧
        (0 ≤ thr → (jscan D thr nc cb i s js).len ≤ s.len)
  | [], s, _, hs => ⟨hs, fun _ => le_refl _⟩
  | j :: rest, s, hjs, hs => by
    obtain ⟨hjl, hju⟩ := hjs j (List.mem_cons_self j rest)
    obtain ⟨hlen, hzero, hlast⟩ := hs
    simp only [jscan]
    split
    · rename_i hacc
      have hjlt : j < s.best.length := by omega
      refine ⟨⟨?_, ?_, ?_⟩, ?_⟩
      · rw [reverseSegment_length s.best i j hjl hjlt]
        exact hlen
      · rw [reverseSegment_getD_zero s.best i j 0 hi hjlt]
        exact hzero
      · have := reverseSegment_getD_last s.best i j 0 hjl (by omega)
        rw [hlen] at this
        rw [this]
        exact hlast
      · intro hthr
        simp only
        have : -thr ≤ 0 := by linarith
        linarith [lt_of_lt_of_le hacc this]
    · split
      · exact ⟨⟨hlen, hzero, hlast⟩, fun _ => le_refl _⟩
      · exact jscan_inv D thr nc cb t0 i hi rest s
          (fun k hk => hjs k (List.mem_cons_of_mem j hk)) ⟨hlen, hzero, hlast⟩

theorem iscan_inv (D : ℕ → ℕ → ℚ) (thr : ℚ) (nc : ℕ) (cb : Option ProgressFn) (t0 : ℕ) :
    ∀ (is : List ℕ) (s : PassState), (∀ i ∈ is, 1 ≤ i) → TourInv nc t0 s.best →
      TourInv nc t0 (iscan D thr nc cb s is).best ∧
        (0 ≤ thr → (iscan D thr nc cb s is).len ≤ s.len)
  | [], s, _, hs => ⟨hs, fun _ => le_refl _⟩
  | i :: rest, s, his, hs => by
    simp only [iscan]
    have hi : 1 ≤ i := his i (List.mem_cons_self i rest)
    have hjs : ∀ j ∈ List.range' (i + 1) (nc - 1 - (i + 1)), i ≤ j ∧ j + 2 ≤ nc := by
      intro j hj
      rw [List.mem_range'_1] at hj
      omega
    have h1 := jscan_inv D thr nc cb t0 i hi (List.range' (i + 1) (nc - 1 - (i + 1))) s hjs hs
    have h2 := iscan_inv D thr nc cb t0 rest
      (jscan D thr nc cb i s (List.range' (i + 1) (nc - 1 - (i + 1))))
      (fun k hk => his k (List.mem_cons_of_mem i hk)) h1.1
    exact ⟨h2.1, fun hthr => le_trans (h2.2 hthr) (h1.2 hthr)⟩

theorem onePass_inv (D : ℕ → ℕ → ℚ) (thr : ℚ) (nc : ℕ) (cb : Option ProgressFn) (t0 : ℕ)
    (best : List ℕ) (len : ℚ) (hs : TourInv nc t0 best) :
    TourInv nc t0 (onePass D thr nc cb best len).best ∧
      (0 ≤ thr → (onePass D thr nc cb best len).len ≤ len) := by
  have his : ∀ i ∈ List.range' 1 (nc - 3), 1 ≤ i := by
    intro i hi
    rw [List.mem_range'_1] at hi
    omega
  exact iscan_inv D thr nc cb t0 (List.range' 1 (nc - 3))
    { best := best, len := len, improved := false, moves := 0 } his hs

theorem twoOptLoop_inv (D : ℕ → ℕ → ℚ) (thr : ℚ) (nc : ℕ) (cb : Option ProgressFn) (t0 : ℕ) :
    ∀ (fuel : ℕ) (best : List ℕ) (len : ℚ), TourInv nc t0 best →
      TourInv nc t0 (twoOptLoop D thr nc cb fuel best len).1 ∧
        (0 ≤ thr → (twoOptLoop D thr nc cb fuel best len).2 ≤ len)
  | 0, best, len, hs => ⟨hs, fun _ => le_refl _⟩
  | fuel + 1, best, len, hs => by
    simp only [twoOptLoop]
    have h1 := onePass_inv D thr nc cb t0 best len hs
    split
    · have h2 := twoOptLoop_inv D thr nc cb t0 fuel
        (onePass D thr nc cb best len).best (onePass D thr nc cb best len).len h1.1
      exact ⟨h2.1, fun hthr => le_trans (h2.2 hthr) (h1.2 hthr)⟩
    · exact h1

/-- The closed working tour built from a route of length ≥ 2 satisfies the
tour invariant, with `t0` the first element of the route. -/
theorem tourOf_inv (route : List ℕ) (h2 : 2 ≤ route.length) :
    TourInv (tourOf route).length (route.headD 0) (tourOf route) ∧
      route.length ≤ (tourOf route).length := by
  have hne : route ≠ [] := by
    intro h
    rw [h] at h2
    simp at h2
  unfold tourOf
  split
  · rename_i hne2
    have hl : (route ++ [route.headD 0]).length = route.length + 1 := by simp
    refine ⟨⟨rfl, ?_, ?_⟩, by omega⟩
    · rw [List.getD_append _ _ _ _ (by omega), headD_eq_getD]
    · rw [hl]
      have : route.length + 1 - 1 = route.length := by omega
      rw [this, List.getD_append_right _ _ _ _ (le_refl _)]
      simp
  · rename_i heq
    push_neg at heq
    refine ⟨⟨rfl, ?_, ?_⟩, le_refl _⟩
    · rw [headD_eq_getD]
    · rw [← getLastD_eq_getD, ← heq, headD_eq_getD]

theorem getLastD_indep (l : List ℕ) (h : l ≠ []) (d1 d2 : ℕ) :
    l.getLastD d1 = l.getLastD d2 := by
  have hl : l.length - 1 < l.length := by
    cases l with
    | nil => exact absurd rfl h
    | cons a t => simp
  rw [getLastD_eq_getD, getLastD_eq_getD, List.getD_eq_getElem _ _ hl,
    List.getD_eq_getElem _ _ hl]

theorem consecSum_append_singleton (D : ℕ → ℕ → ℚ) :
    ∀ (l : List ℕ) (x : ℕ), l ≠ [] →
      consecSum D (l ++ [x]) = consecSum D l + D (l.getLastD 0) x
  | [], _, h => absurd rfl h
  | [a], x, _ => by
    simp [consecSum]
  | a :: b :: t, x, _ => by
    have ih := consecSum_append_singleton D (b :: t) x (by simp)
    simp only [List.cons_append] at ih ⊢
    rw [consecSum, consecSum, ih]
    have hr : (a :: b :: t).getLastD 0 = (b :: t).getLastD 0 := by
      rw [List.getLastD_cons]
      exact getLastD_indep (b :: t) (by simp) a 0
    rw [hr]
    ring

theorem route_length_closed_eq (route : List ℕ) (D : ℕ → ℕ → ℚ) (h2 : 2 ≤ route.length) :
    route_length route D true =
      route_length route D false + D (route.getLastD 0) (route.headD 0) := by
  have h : ¬ route.length < 2 := by omega
  rw [route_length, route_length, if_neg h, if_neg h]
  simp [add_assoc]

theorem route_length_append_head (route : List ℕ) (D : ℕ → ℕ → ℚ)
    (h2 : 2 ≤ route.length) :
    route_length (route ++ [route.headD 0]) D false = route_length route D true := by
  have hne : route ≠ [] := by
    intro h
    rw [h] at h2
    simp at h2
  have hA : ¬ ((route ++ [route.headD 0]).length < 2) := by
    rw [List.length_append]
    omega
  have hB : ¬ (route.length < 2) := by omega
  rw [route_length, route_length, if_neg hA, if_neg hB]
  rw [consecSum_append_singleton D route (route.headD 0) hne]
  simp [add_assoc]

/-- Unfolding of `two_opt` for routes of length ≥ 2. -/
theorem two_opt_eq (route : List ℕ) (D : ℕ → ℕ → ℚ) (mi : ℕ) (thr : ℚ)
    (cb : Option ProgressFn) (h2 : 2 ≤ route.length) :
    two_opt route D mi thr cb =
      ((twoOptRun route D mi thr cb).1.dropLast,
        (twoOptRun route D mi thr cb).2 -
          D ((twoOptRun route D mi thr cb).1.getLastD 0)
            ((twoOptRun route D mi thr cb).1.headD 0)) := by
  rw [two_opt, if_neg (by omega)]

theorem twoOptRun_inv (route : List ℕ) (D : ℕ → ℕ → ℚ) (mi : ℕ) (thr : ℚ)
    (cb : Option ProgressFn) (h2 : 2 ≤ route.length) :
    TourInv (tourOf route).length (route.headD 0) (twoOptRun route D mi thr cb).1 ∧
      (0 ≤ thr → (twoOptRun route D mi thr cb).2 ≤
        route_length (tourOf route) D false +
          D ((tourOf route).getLastD 0) ((tourOf route).headD 0)) := by
  obtain ⟨hinv, _⟩ := tourOf_inv route h2
  exact twoOptLoop_inv D thr (tourOf route).length cb (route.headD 0) mi (tourOf route) _ hinv

end TSP

/-- C7: `route_length` returns 0 for routes shorter than 2 (either value of
`closed`), and for routes of length ≥ 2 the closed length is the open length
plus `D[route[-1], route[0]]`. -/
theorem route_length_closed_open (route : List ℕ) (D : ℕ → ℕ → ℚ) :
    (route.length < 2 →
      TSP.route_length route D true = 0 ∧ TSP.route_length route D false = 0) ∧
    (2 ≤ route.length →
      TSP.route_length route D true =
        TSP.route_length route D false + D (route.getLastD 0) (route.headD 0)) := by
  constructor
  · intro h
    constructor <;> simp [TSP.route_length, h]
  · intro h
    exact TSP.route_length_closed_eq route D h

/-- Witness for C7 at the route `[0, 1]` and the matrix with
`D 0 1 = D 1 0 = 1` and zero elsewhere. -/
theorem route_length_closed_open_witness :
    2 ≤ ([0, 1] : List ℕ).length ∧
    TSP.route_length [0, 1] (fun i j => if (i, j) = (0, 1) ∨ (i, j) = (1, 0) then 1 else 0) true =
      TSP.route_length [0, 1] (fun i j => if (i, j) = (0, 1) ∨ (i, j) = (1, 0) then 1 else 0) false +
      (fun i j : ℕ => if (i, j) = (0, 1) ∨ (i, j) = (1, 0) then (1 : ℚ) else 0)
        (([0, 1] : List ℕ).getLastD 0) (([0, 1] : List ℕ).headD 0) :=
  ⟨by decide,
   (route_length_closed_open [0, 1]
     (fun i j => if (i, j) = (0, 1) ∨ (i, j) = (1, 0) then 1 else 0)).2 (by decide)⟩

/-- C9: `two_opt` preserves the starting node: for every route of length ≥ 2
the first element of the returned route equals the first element of the input
route (segment reversals only cover positions `1 ≤ i ≤ j ≤ nc - 2` of the
internal closed tour). -/
theorem two_opt_preserves_start (route : List ℕ) (D : ℕ → ℕ → ℚ) (mi : ℕ) (thr : ℚ)
    (cb : Option TSP.ProgressFn) (h2 : 2 ≤ route.length) :
    (TSP.two_opt route D mi thr cb).1.headD 0 = route.headD 0 := by
  rw [TSP.two_opt_eq route D mi thr cb h2]
  obtain ⟨⟨hlen, hzero, _⟩, _⟩ := TSP.twoOptRun_inv route D mi thr cb h2
  obtain ⟨_, hge⟩ := TSP.tourOf_inv route h2
  have hlen2 : 2 ≤ (TSP.twoOptRun route D mi thr cb).1.length := by
    rw [hlen]
    omega
  simp only
  rw [TSP.headD_eq_getD, List.dropLast_eq_take,
    TSP.getD_take_zero _ _ (by omega) 0]
  exact hzero

/-- Witness for C9 at the route `[0, 1, 2]` and matrix `D2`. -/
theorem two_opt_preserves_start_witness :
    2 ≤ ([0, 1, 2] : List ℕ).length ∧
    (TSP.two_opt [0, 1, 2] TSP.D2 1000 TSP.default_improve_threshold none).1.headD 0 =
      ([0, 1, 2] : List ℕ).headD 0 :=
  ⟨by decide,
   two_opt_preserves_start [0, 1, 2] TSP.D2 1000 TSP.default_improve_threshold none
     (by decide)⟩

/-- C10: when the input route is already explicitly closed
(`route[0] == route[-1]`, length ≥ 2), `two_opt` appends nothing and drops the
final element before returning, so the returned route is one element shorter
than the input. -/
theorem two_opt_preclosed_length (route : List ℕ) (D : ℕ → ℕ → ℚ) (mi : ℕ) (thr : ℚ)
    (cb : Option TSP.ProgressFn) (h2 : 2 ≤ route.length)
    (hcl : route.headD 0 = route.getLastD 0) :
    (TSP.two_opt route D mi thr cb).1.length = route.length - 1 := by
  have htour : TSP.tourOf route = route := by
    rw [TSP.tourOf, if_neg (not_not_intro hcl)]
  obtain ⟨⟨hlen, _, _⟩, _⟩ := TSP.twoOptRun_inv route D mi thr cb h2
  rw [htour] at hlen
  rw [TSP.two_opt_eq route D mi thr cb h2]
  simp only [List.length_dropLast]
  rw [hlen]

/-- Witness for C10 at the explicitly closed route `[0, 1, 0]`. -/
theorem two_opt_preclosed_length_witness :
    2 ≤ ([0, 1, 0] : List ℕ).length ∧
    ([0, 1, 0] : List ℕ).headD 0 = ([0, 1, 0] : List ℕ).getLastD 0 ∧
    (TSP.two_opt [0, 1, 0] TSP.D2 1000 TSP.default_improve_threshold none).1.length =
      ([0, 1, 0] : List ℕ).length - 1 :=
  ⟨by decide, by decide,
   two_opt_preclosed_length [0, 1, 0] TSP.D2 1000 TSP.default_improve_threshold none
     (by decide) (by decide)⟩

/-- C2 (counterexample): the length value returned by `two_opt` is NOT in
general ≤ the open length of the input route.  On the 2-city instance
(`D[0][1] = D[1][0] = 1`) with input `[0, 1]`, `two_opt` applies no move and
returns length 2 — the closed length — while the input open length is 1. -/
theorem two_opt_len_not_le_open_input :
    ¬ ((TSP.two_opt [0, 1] TSP.D2 1000 TSP.default_improve_threshold none).2 ≤
        TSP.route_length [0, 1] TSP.D2 false) := by
  have h : (TSP.two_opt [0, 1] TSP.D2 1000 TSP.default_improve_threshold none).2 =
      TSP.route_length [0, 1, 0] TSP.D2 false + TSP.D2 0 0 - TSP.D2 0 0 := rfl
  rw [h]
  norm_num [TSP.route_length, TSP.consecSum, TSP.D2]

/-- C2 (amended): for a non-negative threshold and a matrix with non-negative
diagonal, the length value returned by `two_opt` is at most the CLOSED length
of the input route, `route_length(input, D, closed=True)` — `best_len` starts
at the closed tour length and only strictly negative deltas are added. -/
theorem two_opt_len_le_closed_input (route : List ℕ) (D : ℕ → ℕ → ℚ) (mi : ℕ)
    (thr : ℚ) (cb : Option TSP.ProgressFn) (hthr : 0 ≤ thr)
    (hdiag : ∀ i, 0 ≤ D i i) :
    (TSP.two_opt route D mi thr cb).2 ≤ TSP.route_length route D true := by
  by_cases h2 : route.length < 2
  · rw [TSP.two_opt, if_pos h2, TSP.route_length, if_pos h2]
  · push_neg at h2
    rw [TSP.two_opt_eq route D mi thr cb h2]
    obtain ⟨⟨hlen, hzero, hlast⟩, hle⟩ := TSP.twoOptRun_inv route D mi thr cb h2
    obtain ⟨⟨_, tzero, tlast⟩, hge⟩ := TSP.tourOf_inv route h2
    have hheadr : (TSP.twoOptRun route D mi thr cb).1.headD 0 = route.headD 0 := by
      rw [TSP.headD_eq_getD]
      exact hzero
    have hlastr : (TSP.twoOptRun route D mi thr cb).1.getLastD 0 = route.headD 0 := by
      rw [TSP.getLastD_eq_getD, hlen]
      exact hlast
    have hheadt : (TSP.tourOf route).headD 0 = route.headD 0 := by
      rw [TSP.headD_eq_getD]
      exact tzero
    have hlastt : (TSP.tourOf route).getLastD 0 = route.headD 0 := by
      rw [TSP.getLastD_eq_getD]
      exact tlast
    have hrun := hle hthr
    rw [hheadt, hlastt] at hrun
    simp only
    rw [hheadr, hlastr]
    have key : (TSP.twoOptRun route D mi thr cb).2 - D (route.headD 0) (route.headD 0) ≤
        TSP.route_length (TSP.tourOf route) D false := by linarith
    refine le_trans key ?_
    by_cases hc : route.headD 0 ≠ route.getLastD 0
    · have ht : TSP.tourOf route = route ++ [route.headD 0] := by
        rw [TSP.tourOf, if_pos hc]
      rw [ht, TSP.route_length_append_head route D h2]
    · push_neg at hc
      have htr : TSP.tourOf route = route := by
        rw [TSP.tourOf, if_neg (not_not_intro hc)]
      rw [htr, TSP.route_length_closed_eq route D h2]
      have hd : 0 ≤ D (route.getLastD 0) (route.headD 0) := by
        rw [← hc]
        exact hdiag _
      linarith

/-- Witness for C2's amended theorem at `[0, 1]` with matrix `D2`. -/
theorem two_opt_len_le_closed_input_witness :
    (0 : ℚ) ≤ TSP.default_improve_threshold ∧
    (TSP.two_opt [0, 1] TSP.D2 1000 TSP.default_improve_threshold none).2 ≤
      TSP.route_length [0, 1] TSP.D2 true :=
  ⟨by norm_num [TSP.default_improve_threshold],
   two_opt_len_le_closed_input [0, 1] TSP.D2 1000 TSP.default_improve_threshold none
     (by norm_num [TSP.default_improve_threshold]) (fun i => by simp [TSP.D2])⟩

/-- C3: the second component of `two_opt`'s return value is the CLOSED tour
length, not the open length of the returned route: on input `[0, 1]` with
`D[0][1] = D[1][0] = 1` it returns `([0, 1], 2.0)`, while the open length of
`[0, 1]` is 1 (the subtracted `D[best[-1], best[0]]` is the diagonal entry
`D[route[0], route[0]]`, not the closing edge of the open route). -/
theorem two_opt_returns_closed_not_open :
    TSP.two_opt [0, 1] TSP.D2 1000 TSP.default_improve_threshold none = ([0, 1], 2) ∧
    TSP.route_length [0, 1] TSP.D2 false = 1 ∧
    TSP.route_length [0, 1] TSP.D2 true = 2 := by
  have h : TSP.two_opt [0, 1] TSP.D2 1000 TSP.default_improve_threshold none =
      ([0, 1], TSP.route_length [0, 1, 0] TSP.D2 false + TSP.D2 0 0 - TSP.D2 0 0) := rfl
  rw [h]
  norm_num [TSP.route_length, TSP.consecSum, TSP.D2]

/-- C1: a single double-scan pass of `two_opt` can apply TWO improving moves:
on the symmetric 5-city matrix `M5`, starting from the closed tour
`[0, 1, 2, 3, 4, 0]` of the input route `[0, 1, 2, 3, 4]`, the first pass
accepts the move at `(i, j) = (1, 2)` and then — because the source's
`if improved: break` sits inside the `j` loop rather than the `i` loop — goes
on to evaluate and accept a second move at `(i, j) = (2, 3)` in the same
pass, instead of abandoning the double-scan. -/
theorem two_opt_two_moves_in_first_pass :
    (TSP.onePass TSP.D5 TSP.default_improve_threshold 6 none [0, 1, 2, 3, 4, 0]
        (TSP.route_length [0, 1, 2, 3, 4, 0] TSP.D5 false + TSP.D5 0 0)).moves = 2 ∧
    (TSP.onePass TSP.D5 TSP.default_improve_threshold 6 none [0, 1, 2, 3, 4, 0]
        (TSP.route_length [0, 1, 2, 3, 4, 0] TSP.D5 false + TSP.D5 0 0)).best =
      [0, 2, 3, 1, 4, 0] := by
  norm_num [TSP.onePass, TSP.iscan, TSP.jscan, TSP.reverseSegment, TSP.route_length,
    TSP.consecSum, TSP.D5, TSP.M5, TSP.default_improve_threshold, List.range']

namespace TSP

theorem jscan_cb (D : ℕ → ℕ → ℚ) (thr : ℚ) (nc : ℕ) (cb cb2 : Option ProgressFn) (i : ℕ) :
    ∀ (js : List ℕ) (s : PassState),
      jscan D thr nc cb i s js = jscan D thr nc cb2 i s js
  | [], _ => rfl
  | j :: rest, s => by
    simp only [jscan]
    split
    · rfl
    · split
      · rfl
      · exact jscan_cb D thr nc cb cb2 i rest s

theorem iscan_cb (D : ℕ → ℕ → ℚ) (thr : ℚ) (nc : ℕ) (cb cb2 : Option ProgressFn) :
    ∀ (is : List ℕ) (s : PassState),
      iscan D thr nc cb s is = iscan D thr nc cb2 s is
  | [], _ => rfl
  | i :: rest, s => by
    simp only [iscan]
    rw [jscan_cb D thr nc cb cb2 i]
    exact iscan_cb D thr nc cb cb2 rest _

theorem onePass_cb (D : ℕ → ℕ → ℚ) (thr : ℚ) (nc : ℕ) (cb cb2 : Option ProgressFn)
    (best : List ℕ) (len : ℚ) :
    onePass D thr nc cb best len = onePass D thr nc cb2 best len :=
  iscan_cb D thr nc cb cb2 (List.range' 1 (nc - 3)) _

theorem twoOptLoop_cb (D : ℕ → ℕ → ℚ) (thr : ℚ) (nc : ℕ) (cb cb2 : Option ProgressFn) :
    ∀ (fuel : ℕ) (best : List ℕ) (len : ℚ),
      twoOptLoop D thr nc cb fuel best len = twoOptLoop D thr nc cb2 fuel best len
  | 0, _, _ => rfl
  | fuel + 1, best, len => by
    simp only [twoOptLoop]
    rw [onePass_cb D thr nc cb cb2 best len]
    split
    · exact twoOptLoop_cb D thr nc cb cb2 fuel _ _
    · rfl

theorem twoOptRun_cb (route : List ℕ) (D : ℕ → ℕ → ℚ) (mi : ℕ) (thr : ℚ)
    (cb cb2 : Option ProgressFn) :
    twoOptRun route D mi thr cb = twoOptRun route D mi thr cb2 :=
  twoOptLoop_cb D thr (tourOf route).length cb cb2 mi (tourOf route) _

end TSP

/-- C8: `two_opt` never mutates its input route: in the reference/heap model,
the caller's list at `routeRef` is unchanged by the call — all in-place
writes of the function target the freshly allocated working buffers. -/
theorem two_opt_heap_no_input_mutation (σ : TSP.Store) (routeRef fresh : ℕ)
    (D : ℕ → ℕ → ℚ) (mi : ℕ) (thr : ℚ) (cb : Option TSP.ProgressFn)
    (h : routeRef < fresh) :
    (TSP.two_opt_heap σ routeRef fresh D mi thr cb).1 routeRef = σ routeRef := by
  have h1 : routeRef ≠ fresh + 1 := by omega
  have h2 : routeRef ≠ fresh := by omega
  simp only [TSP.two_opt_heap]
  split
  · rfl
  · simp [TSP.Store.write, h1, h2]

/-- Witness for C8 with the route `[0, 1, 2]` stored at reference 0. -/
theorem two_opt_heap_no_input_mutation_witness :
    0 < 1 ∧
    (TSP.two_opt_heap (fun _ => [0, 1, 2]) 0 1 TSP.D2 1000
        TSP.default_improve_threshold none).1 0 = (fun _ => ([0, 1, 2] : List ℕ)) 0 :=
  ⟨by decide,
   two_opt_heap_no_input_mutation (fun _ => [0, 1, 2]) 0 1 TSP.D2 1000
     TSP.default_improve_threshold none (by decide)⟩

/-- C6 (counterexample): a raising progress callback is NOT isolated at the
`solve_tsp` call site: with a callback that always raises, the solve of a
1-point instance errors out, while the same solve with no callback returns a
result. -/
theorem solve_tsp_callback_propagates :
    TSP.solve_tsp 1 (fun _ _ => (0 : ℚ)) "nn+2opt" none none
        (some (fun _ => Except.error "boom")) = Except.error "boom" ∧
    TSP.solve_tsp 1 (fun _ _ => (0 : ℚ)) "nn+2opt" none none none =
      Except.ok { route := [0], lengths := [], method := "nn+2opt", n := 1,
                  best_open_length := 0,
                  best_closed_length := 0 + (fun _ _ => (0 : ℚ)) 0 0,
                  start_idx := 0 } :=
  ⟨rfl, rfl⟩

/-- C6 (amended): inside `two_opt` the callback is guarded
(`try/except Exception: pass`), so the result of `two_opt` does not depend on
the callback at all; the unguarded call sites in `solve_tsp` are the ones
that propagate (see the counterexample). -/
theorem two_opt_callback_isolated (route : List ℕ) (D : ℕ → ℕ → ℚ) (mi : ℕ)
    (thr : ℚ) (cb : Option TSP.ProgressFn) :
    TSP.two_opt route D mi thr cb = TSP.two_opt route D mi thr none := by
  simp only [TSP.two_opt]
  rw [TSP.twoOptRun_cb route D mi thr cb none]

/-- C5 (counterexample): with n = 0 the solver raises
(`RuntimeError("nearest_neighbor returned empty route")`) instead of
returning an empty route of length 0. -/
theorem solve_tsp_n0_errors :
    TSP.solve_tsp 0 (fun _ _ => (0 : ℚ)) "nn+2opt" none none none =
      Except.error "nearest_neighbor returned empty route" := rfl

/-- C5 (amended): for every distance matrix, the n = 0 solve errors out with
"nearest_neighbor returned empty route", while the n = 1 solve succeeds and
returns the single-element route `[0]` with open length 0. -/
theorem solve_tsp_degenerate (D : ℕ → ℕ → ℚ) :
    TSP.solve_tsp 0 D "nn+2opt" none none none =
      Except.error "nearest_neighbor returned empty route" ∧
    ∃ r, TSP.solve_tsp 1 D "nn+2opt" none none none = Except.ok r ∧
      r.route = [0] ∧ r.best_open_length = 0 :=
  ⟨rfl, ⟨_, rfl, rfl, rfl⟩⟩

namespace TSP

/-- `argminFirst` returns the frontmost minimiser: the list splits around the
returned element, everything before it is strictly larger, everything after
it is at least as large. -/
theorem argminFirst_spec (f : ℕ → ℚ) :
    ∀ (l : List ℕ), l ≠ [] → ∃ m l1 l2,
      argminFirst f l = some m ∧ l = l1 ++ m :: l2 ∧
        (∀ x ∈ l1, f m < f x) ∧ (∀ x ∈ l2, f m ≤ f x)
  | [], h => absurd rfl h
  | [x], _ => ⟨x, [], [], rfl, rfl, by simp, by simp⟩
  | x :: y :: xs, _ => by
    obtain ⟨m, l1, l2, hm, hdec, h1, h2⟩ := argminFirst_spec f (y :: xs) (by simp)
    have hstep : argminFirst f (x :: y :: xs) =
        match argminFirst f (y :: xs) with
        | none => some x
        | some z => if f x ≤ f z then some x else some z := rfl
    by_cases hle : f x ≤ f m
    · refine ⟨x, [], y :: xs, ?_, rfl, by simp, ?_⟩
      · rw [hstep, hm]
        show (if f x ≤ f m then some x else some m) = some x
        rw [if_pos hle]
      · intro z hz
        rw [hdec] at hz
        rcases List.mem_append.mp hz with hz1 | hz2
        · exact le_of_lt (lt_of_le_of_lt hle (h1 z hz1))
        · rcases List.mem_cons.mp hz2 with rfl | hz2p
          · exact hle
          · exact le_trans hle (h2 z hz2p)
    · push_neg at hle
      refine ⟨m, x :: l1, l2, ?_, ?_, ?_, h2⟩
      · rw [hstep, hm]
        show (if f x ≤ f m then some x else some m) = some m
        rw [if_neg (not_le.mpr hle)]
      · rw [List.cons_append, ← hdec]
      · intro z hz
        rcases List.mem_cons.mp hz with rfl | hzp
        · exact hle
        · exact h1 z hzp

/-- While fewer than `n` indices are visited, an unvisited index below `n`
exists. -/
theorem exists_unvisited (n : ℕ) (route : List ℕ) (hnd : route.Nodup)
    (hlen : route.length < n) :
    ∃ k, k < n ∧ k ∉ route := by
  by_contra h
  push_neg at h
  have hsub : Finset.range n ⊆ route.toFinset := by
    intro k hk
    rw [List.mem_toFinset]
    exact h k (Finset.mem_range.mp hk)
  have hcard := Finset.card_le_card hsub
  rw [Finset.card_range, List.toFinset_card_of_nodup hnd] at hcard
  omega

/-- The greedy selection step satisfies its specification whenever an
unvisited index exists. -/
theorem nnStep_spec (D : ℕ → ℕ → ℚ) (n current : ℕ) (route : List ℕ)
    (h : ∃ k, k < n ∧ k ∉ route) :
    stepSpec D n current (nnStep D n current route) route := by
  obtain ⟨k0, hk0n, hk0r⟩ := h
  have hmemc : ∀ x, x ∈ (List.range n).filter (fun j => decide (j ∉ route)) ↔
      x < n ∧ x ∉ route := by
    intro x
    simp [List.mem_filter, List.mem_range]
  have hne : (List.range n).filter (fun j => decide (j ∉ route)) ≠ [] := by
    intro hemp
    have hmem := (hmemc k0).mpr ⟨hk0n, hk0r⟩
    rw [hemp] at hmem
    simp at hmem
  obtain ⟨m, l1, l2, hm, hdec, h1, h2⟩ :=
    argminFirst_spec (D current) ((List.range n).filter (fun j => decide (j ∉ route))) hne
  have hstep : nnStep D n current route = m := by
    rw [nnStep, hm]
    rfl
  have hpw : ((List.range n).filter (fun j => decide (j ∉ route))).Pairwise (· < ·) :=
    List.Pairwise.filter _ (List.pairwise_lt_range n)
  rw [hdec, List.pairwise_append, List.pairwise_cons] at hpw
  obtain ⟨_, ⟨hml2, _⟩, _⟩ := hpw
  have hmc : m ∈ (List.range n).filter (fun j => decide (j ∉ route)) := by
    rw [hdec]
    exact List.mem_append_right _ (List.mem_cons_self m l2)
  obtain ⟨hmn, hmr⟩ := (hmemc m).mp hmc
  rw [hstep]
  refine ⟨hmn, hmr, ?_, ?_⟩
  · intro k hkn hkr
    have hkc := (hmemc k).mpr ⟨hkn, hkr⟩
    rw [hdec] at hkc
    rcases List.mem_append.mp hkc with hk1 | hk2
    · exact le_of_lt (h1 k hk1)
    · rcases List.mem_cons.mp hk2 with rfl | hk2p
      · exact le_refl _
      · exact h2 k hk2p
  · intro k hkn hkr hklt
    have hkc := (hmemc k).mpr ⟨hkn, hkr⟩
    rw [hdec] at hkc
    rcases List.mem_append.mp hkc with hk1 | hk2
    · exact h1 k hk1
    · rcases List.mem_cons.mp hk2 with rfl | hk2p
      · omega
      · have := hml2 k hk2p
        omega

/-- Main loop invariant of `nearest_neighbor`: starting from a nonempty
duplicate-free partial route whose length plus the remaining fuel is `n`,
the loop returns a duplicate-free route of length `n` over indices below
`n`, preserving the head, and every appended step is a greedy step. -/
theorem nnLoop_spec (D : ℕ → ℕ → ℚ) (n : ℕ) :
    ∀ (fuel current : ℕ) (route : List ℕ),
      route ≠ [] → route.Nodup → (∀ x ∈ route, x < n) →
      route.length + fuel = n → current = route.getLastD 0 → nnGood D n route →
      (nnLoop D n fuel current route).length = n ∧
      (nnLoop D n fuel current route).Nodup ∧
      (∀ x ∈ nnLoop D n fuel current route, x < n) ∧
      (nnLoop D n fuel current route).headD 0 = route.headD 0 ∧
      nnGood D n (nnLoop D n fuel current route)
  | 0, current, route, _, hnd, hb, hlen, _, hgood => by
    simp only [nnLoop]
    refine ⟨by omega, hnd, hb, ?_, hgood⟩
    trivial
  | fuel + 1, current, route, hne, hnd, hb, hlen, hcur, hgood => by
    simp only [nnLoop]
    have hex : ∃ k, k < n ∧ k ∉ route :=
      exists_unvisited n route hnd (by omega)
    obtain ⟨hnxtn, hnxtr, hmin, htie⟩ := nnStep_spec D n current route hex
    have hne2 : route ++ [nnStep D n current route] ≠ [] := by simp
    have hnd2 : (route ++ [nnStep D n current route]).Nodup := by
      simp [List.nodup_append, hnd, hnxtr]
    have hb2 : ∀ x ∈ route ++ [nnStep D n current route], x < n := by
      intro x hx
      rcases List.mem_append.mp hx with hx1 | hx2
      · exact hb x hx1
      · rw [List.mem_singleton] at hx2
        subst hx2
        exact hnxtn
    have hlen2 : (route ++ [nnStep D n current route]).length + fuel = n := by
      rw [List.length_append]
      simp
      omega
    have hcur2 : nnStep D n current route =
        (route ++ [nnStep D n current route]).getLastD 0 :=
      (getLastD_append_singleton route (nnStep D n current route) 0).symm
    have hposr : 0 < route.length := by
      cases route with
      | nil => exact absurd rfl hne
      | cons a t => simp
    have hgood2 : nnGood D n (route ++ [nnStep D n current route]) := by
      intro p hp
      rw [List.length_append, List.length_singleton] at hp
      by_cases hplt : p + 1 < route.length
      · have e1 : (route ++ [nnStep D n current route]).getD p 0 = route.getD p 0 :=
          List.getD_append _ _ _ _ (by omega)
        have e2 : (route ++ [nnStep D n current route]).getD (p + 1) 0 =
            route.getD (p + 1) 0 :=
          List.getD_append _ _ _ _ (by omega)
        have e3 : (route ++ [nnStep D n current route]).take (p + 1) =
            route.take (p + 1) :=
          List.take_append_of_le_length (by omega)
        rw [e1, e2, e3]
        exact hgood p hplt
      · have hpe : p + 1 = route.length := by omega
        have e1 : (route ++ [nnStep D n current route]).getD p 0 = route.getD p 0 :=
          List.getD_append _ _ _ _ (by omega)
        have e2 : (route ++ [nnStep D n current route]).getD (p + 1) 0 =
            nnStep D n current route := by
          rw [List.getD_append_right _ _ _ _ (by omega), hpe]
          simp
        have e3 : (route ++ [nnStep D n current route]).take (p + 1) = route := by
          rw [hpe]
          exact List.take_left route [nnStep D n current route]
        rw [e1, e2, e3]
        have ecur : route.getD p 0 = current := by
          rw [hcur, getLastD_eq_getD]
          congr 1
          omega
        rw [ecur]
        exact ⟨hnxtn, hnxtr, hmin, htie⟩
    have ih := nnLoop_spec D n fuel (nnStep D n current route)
      (route ++ [nnStep D n current route]) hne2 hnd2 hb2 hlen2 hcur2 hgood2
    refine ⟨ih.1, ih.2.1, ih.2.2.1, ?_, ih.2.2.2.2⟩
    rw [ih.2.2.2.1, headD_eq_getD, headD_eq_getD,
      List.getD_append _ _ _ _ hposr]

end TSP

/-- C4: for every matrix and every start index in `[0, n)`,
`nearest_neighbor` returns a route of length `n` that is a permutation of
`0..n-1`, begins at the start index, is deterministic (a pure function of its
input), and every step moves to the unvisited index of minimal distance with
ties broken toward the lower index (`nnGood`, built on first-occurrence
argmin `stepSpec`). -/
theorem nearest_neighbor_spec (D : ℕ → ℕ → ℚ) (n start : ℕ) (hstart : start < n) :
    (TSP.nearest_neighbor start D n).length = n ∧
    (TSP.nearest_neighbor start D n).Perm (List.range n) ∧
    (TSP.nearest_neighbor start D n).headD 0 = start ∧
    TSP.nearest_neighbor start D n = TSP.nearest_neighbor start D n ∧
    TSP.nnGood D n (TSP.nearest_neighbor start D n) := by
  have hn0 : n ≠ 0 := by omega
  have hs : ¬ (start ≥ n) := by omega
  have hunf : TSP.nearest_neighbor start D n = TSP.nnLoop D n (n - 1) start [start] := by
    simp [TSP.nearest_neighbor, hn0, hs]
  rw [hunf]
  have hloop := TSP.nnLoop_spec D n (n - 1) start [start] (by simp)
    (List.nodup_singleton _)
    (by
      intro x hx
      rw [List.mem_singleton] at hx
      omega)
    (by
      simp
      omega)
    rfl
    (by
      intro p hp
      simp at hp)
  obtain ⟨hlen, hnd, hb, hhead, hgood⟩ := hloop
  refine ⟨hlen, ?_, ?_, rfl, hgood⟩
  · have hsub : TSP.nnLoop D n (n - 1) start [start] ⊆ List.range n := by
      intro x hx
      rw [List.mem_range]
      exact hb x hx
    exact (List.subperm_of_subset hnd hsub).perm_of_length_le
      (by rw [hlen, List.length_range])
  · rw [hhead]
    rfl

/-- Witness for C4 at `n = 3`, `start = 1`, matrix `D2`. -/
theorem nearest_neighbor_spec_witness :
    1 < 3 ∧
    ((TSP.nearest_neighbor 1 TSP.D2 3).length = 3 ∧
      (TSP.nearest_neighbor 1 TSP.D2 3).Perm (List.range 3) ∧
      (TSP.nearest_neighbor 1 TSP.D2 3).headD 0 = 1 ∧
      TSP.nearest_neighbor 1 TSP.D2 3 = TSP.nearest_neighbor 1 TSP.D2 3 ∧
      TSP.nnGood TSP.D2 3 (TSP.nearest_neighbor 1 TSP.D2 3)) :=
  ⟨by decide, nearest_neighbor_spec TSP.D2 3 1 (by decide)⟩
